import Mathlib

/-!
Verification of the `monster` repository slice: the SMT-LIB emitter backend
(src/solver/external.rs) and the CLI validators (src/cli.rs).

The formula IR and its memoized traversal live outside the provided slice;
they are modelled from the specification (sections 3 and 4.C) and marked as
such in their doc comments.  Everything else is translated from the Rust
source.
-/

namespace Monster

/-! Node identifiers (SymbolId in the Rust code) are natural numbers, dense
from 0 (spec section 3). -/

/-- Unsigned 64-bit bit-vector value; the emitter only reads the raw value. -/
structure BitVector where
  val : Nat
deriving DecidableEq

/-- Closed operator set of the formula IR (spec section 3; matched exhaustively
by to_smt in src/solver/external.rs). -/
inductive BVOperator
  | add | sub | mul | divu | remu | not | equals | bitwiseAnd | sltu
deriving DecidableEq

/-- Solver errors visible in src/solver/external.rs: the SatUnknown sentinel
and I/O failures converted through SolverError::from; an I/O failure carries a
numeric code so that distinct failures are distinguishable. -/
inductive SolverError
  | satUnknown
  | ioError (code : Nat)
deriving DecidableEq

instance {ε α : Type} [DecidableEq ε] [DecidableEq α] : DecidableEq (Except ε α) := fun x y =>
  match x, y with
  | .ok a, .ok b =>
      if h : a = b then isTrue (by rw [h]) else isFalse (by intro hh; cases hh; exact h rfl)
  | .error a, .error b =>
      if h : a = b then isTrue (by rw [h]) else isFalse (by intro hh; cases hh; exact h rfl)
  | .ok _, .error _ => isFalse (by intro hh; cases hh)
  | .error _, .ok _ => isFalse (by intro hh; cases hh)

/-- Byte sink behind the emitter (the shared writer in the Rust code), modelled
as the list of successfully written chunks plus a failure schedule: writes
succeed while `count` is below `failsAt` and fail with an I/O error from then
on; `failsAt = none` is a sink whose writes always succeed. -/
structure Sink where
  written : List String
  failsAt : Option Nat
  count : Nat
deriving DecidableEq

def Sink.write (s : Sink) (c : String) : Except SolverError Sink :=
  match s.failsAt with
  | none => .ok { written := s.written ++ [c], failsAt := none, count := s.count + 1 }
  | some k =>
      if k ≤ s.count then .error (.ioError s.count)
      else .ok { written := s.written ++ [c], failsAt := some k, count := s.count + 1 }

/-- Decimal digit character. -/
def digitChar (d : Nat) : Char := Char.ofNat (48 + d)

/-- Decimal printing of a natural number, fuel-based so that it reduces in the
kernel; `natChars` supplies enough fuel. -/
def natCharsAux : Nat → Nat → List Char
  | 0, _ => []
  | fuel + 1, n =>
      if n < 10 then [digitChar n]
      else natCharsAux fuel (n / 10) ++ [digitChar (n % 10)]

/-- Decimal representation of `n`, as written by the Rust Display instance. -/
def natChars (n : Nat) : List Char := natCharsAux (n + 1) n

/-- One character of Rust Debug formatting for strings.  Escapes for control
characters other than newline, tab and carriage return are not modelled; the
input names of the benchmark formulas contain none. -/
def escChar (c : Char) : List Char :=
  if c = '\\' then ['\\', '\\']
  else if c = '"' then ['\\', '"']
  else if c = '\n' then ['\\', 'n']
  else if c = '\t' then ['\\', 't']
  else if c = '\r' then ['\\', 'r']
  else [c]

/-- Rust Debug formatting of a string: quoted and escaped. -/
def escDebug (name : String) : List Char :=
  '"' :: (name.toList.flatMap escChar ++ ['"'])

/-- Operator token mapping of the emitter (to_smt in src/solver/external.rs),
with the match arms in source order. -/
def to_smt : BVOperator → String
  | .add => "bvadd"
  | .sub => "bvsub"
  | .not => "not"
  | .mul => "bvmul"
  | .divu => "bvudiv"
  | .remu => "bvurem"
  | .equals => "="
  | .bitwiseAnd => "bvand"
  | .sltu => "bvult"

/-- Declaration line `(declare-fun x<id> () (_ BitVec 64))`. -/
def declLine (i : Nat) : List Char :=
  "(declare-fun x".toList ++ natChars i ++ " () (_ BitVec 64))".toList

/-- Declaration line for an input node, with the Debug-formatted original name
appended as a comment. -/
def inputLine (i : Nat) (name : String) : List Char :=
  declLine i ++ "; ".toList ++ escDebug name

/-- Assertion line for a constant node. -/
def assertConstLine (i v : Nat) : List Char :=
  "(assert (= x".toList ++ natChars i ++ " (_ bv".toList ++ natChars v ++ " 64)))".toList

/-- Assertion line for a unary node. -/
def assertUnaryLine (i : Nat) (op : BVOperator) (c : Nat) : List Char :=
  "(assert (= x".toList ++ natChars i ++ " (".toList ++ (to_smt op).toList
    ++ " x".toList ++ natChars c ++ ")))".toList

/-- Assertion line for a binary node. -/
def assertBinaryLine (i : Nat) (op : BVOperator) (l r : Nat) : List Char :=
  "(assert (= x".toList ++ natChars i ++ " (".toList ++ (to_smt op).toList
    ++ " x".toList ++ natChars l ++ " x".toList ++ natChars r ++ ")))".toList

/-- Newline-terminate every line and concatenate, as a single writeln call does. -/
def joinLines (ls : List (List Char)) : List Char :=
  (ls.map (fun l => l ++ ['\n'])).flatten

/-- The chunk written by one writeln call, given its lines. -/
def chunkOfLines (ls : List (List Char)) : String := ⟨joinLines ls⟩

/-- Visitor callback for input nodes (SmtPrinter::input): one declaration line
with the name as a comment; the write error, if any, becomes the result. -/
def SmtPrinter.input (s : Sink) (idx : Nat) (name : String) :
    Except SolverError Nat × Sink :=
  match s.write (chunkOfLines [inputLine idx name]) with
  | .ok s' => (.ok idx, s')
  | .error e => (.error e, s)

/-- Visitor callback for constant nodes (SmtPrinter::constant). -/
def SmtPrinter.constant (s : Sink) (idx : Nat) (v : BitVector) :
    Except SolverError Nat × Sink :=
  match s.write (chunkOfLines [declLine idx, assertConstLine idx v.val]) with
  | .ok s' => (.ok idx, s')
  | .error e => (.error e, s)

/-- Visitor callback for unary nodes (SmtPrinter::unary): the child result is
forced before anything is written, as the format arguments of the writeln call
are evaluated first. -/
def SmtPrinter.unary (s : Sink) (idx : Nat) (op : BVOperator)
    (v : Except SolverError Nat) : Except SolverError Nat × Sink :=
  match v with
  | .error e => (.error e, s)
  | .ok c =>
      match s.write (chunkOfLines [declLine idx, assertUnaryLine idx op c]) with
      | .ok s' => (.ok idx, s')
      | .error e => (.error e, s)

/-- Visitor callback for binary nodes (SmtPrinter::binary): the left child
result is forced first, then the right one, then the chunk is written; format
arguments of the writeln call are evaluated left to right before the write. -/
def SmtPrinter.binary (s : Sink) (idx : Nat) (op : BVOperator)
    (lhs rhs : Except SolverError Nat) : Except SolverError Nat × Sink :=
  match lhs with
  | .error e => (.error e, s)
  | .ok l =>
      match rhs with
      | .error e => (.error e, s)
      | .ok r =>
          match s.write (chunkOfLines [declLine idx, assertBinaryLine idx op l r]) with
          | .ok s' => (.ok idx, s')
          | .error e => (.error e, s)

/-- Modelled from the spec: the formula IR node shape (spec section 3); the node
type itself lives outside the provided source slice. -/
inductive Node
  | input (name : String)
  | constant (v : BitVector)
  | unary (op : BVOperator) (c : Nat)
  | binary (op : BVOperator) (l r : Nat)
deriving DecidableEq

/-- Modelled from the spec: a formula owns its node array and designates a root
(spec section 3); identifiers are positions in the array. -/
structure Formula where
  nodes : List Node
  root : Nat
deriving DecidableEq

/-- Memoization map of the traversal, modelling the HashMap passed to
Formula::traverse in src/solver/external.rs, as an association list. -/
abbrev Visited := List (Nat × Except SolverError Nat)

def alookup : Visited → Nat → Option (Except SolverError Nat)
  | [], _ => none
  | (k, v) :: rest, n => if k = n then some v else alookup rest n

/-- Per-node id check of the topological-order invariant: children denote
already-constructed nodes, so child ids are strictly below the node id. -/
def childOk (i : Nat) : Node → Bool
  | .input _ => true
  | .constant _ => true
  | .unary _ c => decide (c < i)
  | .binary _ l r => decide (l < i) && decide (r < i)

def wfFrom : Nat → List Node → Bool
  | _, [] => true
  | i, nd :: rest => childOk i nd && wfFrom (i + 1) rest

/-- Well-formed formula: in-range root and topologically ordered children
(spec section 3, invariant i, and section 8, law 1). -/
def Wf (f : Formula) : Prop :=
  (decide (f.root < f.nodes.length) && wfFrom 0 f.nodes) = true

instance (f : Formula) : Decidable (Wf f) := by unfold Wf; infer_instance

/-- Modelled from the spec: the memoized traversal of the visitor protocol
(spec section 4.C), instantiated at the SMT printer.  Each node is visited
once: a cached result is returned unchanged; otherwise children are processed
before the node's own callback runs (post-order) and the result is cached,
errors included — propagation is the visitor's business, not the traversal's.
The traversal is fuel-based so that it reduces in the kernel; a dangling node
id (an internal invariant violation in the Rust code) and fuel exhaustion,
which cannot happen on well-formed formulas, yield an I/O error result. -/
def traverse (f : Formula) : Nat → Nat → Visited → Sink →
    Except SolverError Nat × Visited × Sink
  | 0, _, vt, s => (.error (.ioError 0), vt, s)
  | fuel + 1, n, vt, s =>
      match alookup vt n with
      | some r => (r, vt, s)
      | none =>
          match f.nodes[n]? with
          | none => (.error (.ioError 0), (n, .error (.ioError 0)) :: vt, s)
          | some (.input name) =>
              let p := SmtPrinter.input s n name
              (p.1, (n, p.1) :: vt, p.2)
          | some (.constant v) =>
              let p := SmtPrinter.constant s n v
              (p.1, (n, p.1) :: vt, p.2)
          | some (.unary op c) =>
              let q := traverse f fuel c vt s
              let p := SmtPrinter.unary q.2.2 n op q.1
              (p.1, (n, p.1) :: q.2.1, p.2)
          | some (.binary op l r) =>
              let q1 := traverse f fuel l vt s
              let q2 := traverse f fuel r q1.2.1 q1.2.2
              let p := SmtPrinter.binary q2.2.2 n op q1.1 q2.1
              (p.1, (n, p.1) :: q2.2.1, p.2)

/-- First-visit post-order enumeration of the nodes reachable from `n`,
mirroring the recursion structure of `traverse`: `seen` plays the part of the
memoization map, and a node is appended after its children. -/
def postOrderAux (f : Formula) : Nat → Nat → List Nat → List Nat
  | 0, _, seen => seen
  | fuel + 1, n, seen =>
      if n ∈ seen then seen
      else
        match f.nodes[n]? with
        | none => seen ++ [n]
        | some (.input _) => seen ++ [n]
        | some (.constant _) => seen ++ [n]
        | some (.unary _ c) => postOrderAux f fuel c seen ++ [n]
        | some (.binary _ l r) =>
            postOrderAux f fuel r (postOrderAux f fuel l seen) ++ [n]

/-- Post-order of the nodes reachable from the root. -/
def postOrder (f : Formula) : List Nat := postOrderAux f (f.root + 1) f.root []

/-- The lines emitted for node `i` of formula `f`. -/
def nodeLines (f : Formula) (i : Nat) : List (List Char) :=
  match f.nodes[i]? with
  | some (.input name) => [inputLine i name]
  | some (.constant v) => [declLine i, assertConstLine i v.val]
  | some (.unary op c) => [declLine i, assertUnaryLine i op c]
  | some (.binary op l r) => [declLine i, assertBinaryLine i op l r]
  | none => []

/-- The chunk emitted for node `i` of formula `f`. -/
def chunkStr (f : Formula) (i : Nat) : String := chunkOfLines (nodeLines f i)

/-- A satisfying assignment maps input node ids to concrete bit-vectors. -/
abbrev Assignment := List (Nat × BitVector)

/-- ExternalSolver::solve_impl (src/solver/external.rs): write `(push 1)`, run
the traversal from the root with a fresh memoization map, write the closing
`(check-sat)\n(get-model)\n(pop 1)` block, and end with the SatUnknown
sentinel; every fallible step propagates its error immediately. -/
def solve_impl (f : Formula) (s : Sink) :
    Except SolverError (Option Assignment) × Sink :=
  match s.write "(push 1)\n" with
  | .error e => (.error e, s)
  | .ok s1 =>
      match traverse f (f.root + 1) f.root [] s1 with
      | (.error e, _, s2) => (.error e, s2)
      | (.ok _, _, s2) =>
          match s2.write "(check-sat)\n(get-model)\n(pop 1)\n" with
          | .error e => (.error e, s2)
          | .ok s3 => (.error .satUnknown, s3)

/-- Split a character stream at newlines. -/
def splitLines : List Char → List (List Char)
  | [] => [[]]
  | c :: cs =>
      if c = '\n' then [] :: splitLines cs
      else
        match splitLines cs with
        | [] => [[c]]
        | l :: ls => (c :: l) :: ls

/-- The byte stream held by a list of written chunks. -/
def chars (out : List String) : List Char := (out.map String.toList).flatten

/-- How many lines of the byte stream of `out` are exactly `l`. -/
def lineCount (out : List String) (l : String) : Nat :=
  (splitLines (chars out)).count l.toList

/-- The chunks a solve call appended to the sink. -/
def appendedOutput (f : Formula) (s : Sink) : List String :=
  ((solve_impl f s).2).written.drop s.written.length

/-- Value of a digit string. -/
def digitsVal (cs : List Char) : Nat := cs.foldl (fun a c => a * 10 + (c.toNat - 48)) 0

/-- Drop one optional leading plus sign, as Rust integer parsing does. -/
def stripPlus : List Char → List Char
  | '+' :: rest => rest
  | cs => cs

/-- Rust u64::from_str: an optional leading plus sign followed by one or more
decimal digits, rejecting values that do not fit in 64 bits; error strings
follow ParseIntError::to_string.  Accumulating with checked arithmetic fails
exactly when the final value does, since the accumulator grows monotonically. -/
def parseU64 (s : String) : Except String Nat :=
  if s.toList.isEmpty then .error "cannot parse integer from empty string"
  else
    let cs := stripPlus s.toList
    if cs.isEmpty then .error "invalid digit found in string"
    else if cs.all Char.isDigit then
      if digitsVal cs < 2 ^ 64 then .ok (digitsVal cs)
      else .error "number too large to fit in target type"
    else .error "invalid digit found in string"

/-- Validator `is` from src/cli.rs instantiated at u64, as used by the
max-execution-depth, step-size and iterations options: parse, drop the value,
report the parse error text otherwise. -/
def is (v : String) : Except String Unit :=
  match parseU64 v with
  | .ok _ => .ok ()
  | .error e => .error e

/-- Validator is_valid_memory_size from src/cli.rs: a u64 whose value lies in
the inclusive range 1..=1024. -/
def is_valid_memory_size (v : String) : Except String Unit :=
  match is v with
  | .error e => .error e
  | .ok _ =>
      match parseU64 v with
      | .error e => .error e
      | .ok memory_size =>
          if 1 ≤ memory_size ∧ memory_size ≤ 1024 then .ok ()
          else .error "memory size has to be in range: 1 - 1024"

/-- Value domain of a parsed f64 as far as the ratio validator observes it:
every finite double is an exact rational, plus NaN and the two infinities.
Decimal-to-double parsing itself is Rust standard library code and is treated
as an oracle producing one of these outcomes; `none` models a parse error. -/
inductive FVal
  | num (q : ℚ)
  | nan
  | inf
  | ninf
deriving DecidableEq

/-- IEEE-754 comparison on the observed value domain: NaN compares false with
everything, and the range check of RangeInclusive::contains uses exactly this
partial order. -/
def fle : FVal → FVal → Bool
  | .nan, _ => false
  | _, .nan => false
  | .ninf, _ => true
  | _, .ninf => false
  | .num a, .num b => decide (a ≤ b)
  | _, .inf => true
  | .inf, _ => false

/-- Validator is_ratio from src/cli.rs, applied to the parse outcome: accept a
parsed value contained in the inclusive range 0.0..=1.0, report the range
error text otherwise, and forward the parse error text on a parse failure. -/
def is_ratio (v : Option FVal) : Except String Unit :=
  match v with
  | some ratio =>
      if fle (.num 0) ratio && fle ratio (.num 1) then .ok ()
      else .error "Expected range between 0.0 and 1.0"
  | none => .error "invalid float literal"

/-- Minimal file-system model for ExternalSolver::new: the set of existing
files.  File::open succeeds exactly on existing paths, yields a read-access
handle, and never modifies the file system (in particular it creates nothing). -/
structure FS where
  files : List String
deriving DecidableEq

inductive Mode
  | read
  | write
deriving DecidableEq

structure FileHandle where
  path : String
  mode : Mode
deriving DecidableEq

def fileOpen (fs : FS) (p : String) : Except SolverError FileHandle × FS :=
  if p ∈ fs.files then (.ok ⟨p, .read⟩, fs) else (.error (.ioError 2), fs)

/-- The external solver owns its output sink (the shared writer). -/
structure ExternalSolver where
  output : Sink
deriving DecidableEq

/-- write_init from src/solver/external.rs. -/
def write_init (s : Sink) : Except SolverError Sink :=
  s.write "(set-logic QF_BV)\n"

/-- A freshly constructed buffered writer: buffered writes at construction time
succeed, so its failure schedule is empty. -/
def freshBufWriter : Sink := { written := [], failsAt := none, count := 0 }

/-- ExternalSolver::new: open the file at the path (read access, per
File::open), wrap it in a buffered writer, write the init line, and return the
solver; both the open and the init write propagate their error. -/
def ExternalSolver.new (fs : FS) (path : String) :
    Except SolverError ExternalSolver × FS :=
  match fileOpen fs path with
  | (.error e, fs') => (.error e, fs')
  | (.ok _file, fs') =>
      match write_init freshBufWriter with
      | .error e => (.error e, fs')
      | .ok w => (.ok ⟨w⟩, fs')

/-- The Default instance: a buffered writer over standard output, init line
written at construction; the error arm is unreachable since writes to the
fresh buffered writer succeed (the Rust code calls expect there). -/
def ExternalSolver.defaultSolver : ExternalSolver :=
  match write_init freshBufWriter with
  | .ok w => ⟨w⟩
  | .error _ => ⟨freshBufWriter⟩

/-! Children, reachability and ordering notions used to state the emitter's
output properties. -/

/-- The child ids of node `i`. -/
def children (f : Formula) (i : Nat) : List Nat :=
  match f.nodes[i]? with
  | some (.unary _ c) => [c]
  | some (.binary _ l r) => [l, r]
  | _ => []

/-- `Reach f n x`: node `x` is reachable from node `n` through child edges. -/
inductive Reach (f : Formula) : Nat → Nat → Prop
  | refl (n : Nat) : Reach f n n
  | unary {n c x : Nat} {op : BVOperator} :
      f.nodes[n]? = some (.unary op c) → Reach f c x → Reach f n x
  | binl {n l r x : Nat} {op : BVOperator} :
      f.nodes[n]? = some (.binary op l r) → Reach f l x → Reach f n x
  | binr {n l r x : Nat} {op : BVOperator} :
      f.nodes[n]? = some (.binary op l r) → Reach f r x → Reach f n x

/-- A node list closed under children. -/
def Closed (f : Formula) (seen : List Nat) : Prop :=
  ∀ p ∈ seen, ∀ c ∈ children f p, c ∈ seen

/-- Children come strictly before their parents in the list. -/
def Ordered (f : Formula) (L : List Nat) : Prop :=
  ∀ k p, L[k]? = some p → ∀ c ∈ children f p, c ∈ L.take k

/-! Basic facts about the sink, the printer callbacks and well-formedness. -/

theorem Sink.write_none {s : Sink} (h : s.failsAt = none) (c : String) :
    s.write c = .ok { written := s.written ++ [c], failsAt := none, count := s.count + 1 } := by
  unfold Sink.write; rw [h]

theorem SmtPrinter.input_ok {s : Sink} (h : s.failsAt = none) (idx : Nat) (name : String) :
    SmtPrinter.input s idx name =
      (.ok idx, { written := s.written ++ [chunkOfLines [inputLine idx name]],
                  failsAt := none, count := s.count + 1 }) := by
  unfold SmtPrinter.input; rw [Sink.write_none h]

theorem SmtPrinter.constant_ok {s : Sink} (h : s.failsAt = none) (idx : Nat) (v : BitVector) :
    SmtPrinter.constant s idx v =
      (.ok idx, { written := s.written ++ [chunkOfLines [declLine idx, assertConstLine idx v.val]],
                  failsAt := none, count := s.count + 1 }) := by
  unfold SmtPrinter.constant; rw [Sink.write_none h]

theorem SmtPrinter.unary_ok {s : Sink} (h : s.failsAt = none) (idx : Nat)
    (op : BVOperator) (c : Nat) :
    SmtPrinter.unary s idx op (.ok c) =
      (.ok idx, { written := s.written ++ [chunkOfLines [declLine idx, assertUnaryLine idx op c]],
                  failsAt := none, count := s.count + 1 }) := by
  unfold SmtPrinter.unary; dsimp only; rw [Sink.write_none h]

theorem SmtPrinter.binary_ok {s : Sink} (h : s.failsAt = none) (idx : Nat)
    (op : BVOperator) (l r : Nat) :
    SmtPrinter.binary s idx op (.ok l) (.ok r) =
      (.ok idx, { written := s.written ++ [chunkOfLines [declLine idx, assertBinaryLine idx op l r]],
                  failsAt := none, count := s.count + 1 }) := by
  unfold SmtPrinter.binary; dsimp only; rw [Sink.write_none h]

theorem wfFrom_get? :
    ∀ (l : List Node) (k i : Nat) (nd : Node),
      wfFrom k l = true → l[i]? = some nd → childOk (k + i) nd = true := by
  intro l
  induction l with
  | nil => intro k i nd _ h2; simp at h2
  | cons hd tl ih =>
      intro k i nd h1 h2
      unfold wfFrom at h1
      rw [Bool.and_eq_true] at h1
      cases i with
      | zero =>
          rw [List.getElem?_cons_zero] at h2
          injection h2 with h2
          subst h2
          simpa using h1.1
      | succ j =>
          rw [List.getElem?_cons_succ] at h2
          have h3 := ih (k + 1) j nd h1.2 h2
          have heq : k + 1 + j = k + (j + 1) := by omega
          rwa [heq] at h3

theorem wf_root {f : Formula} (h : Wf f) : f.root < f.nodes.length := by
  unfold Wf at h; rw [Bool.and_eq_true] at h; exact of_decide_eq_true h.1

theorem wf_child {f : Formula} (h : Wf f) {i : Nat} {nd : Node}
    (hg : f.nodes[i]? = some nd) : childOk i nd = true := by
  unfold Wf at h
  rw [Bool.and_eq_true] at h
  simpa using wfFrom_get? f.nodes 0 i nd h.2 hg

theorem wf_unary {f : Formula} (h : Wf f) {i : Nat} {op : BVOperator} {c : Nat}
    (hg : f.nodes[i]? = some (.unary op c)) : c < i := by
  have h2 := wf_child h hg
  simpa [childOk] using h2

theorem wf_binary {f : Formula} (h : Wf f) {i : Nat} {op : BVOperator} {l r : Nat}
    (hg : f.nodes[i]? = some (.binary op l r)) : l < i ∧ r < i := by
  have h2 := wf_child h hg
  simpa [childOk] using h2

theorem get?_of_lt {l : List Node} {n : Nat} (h : n < l.length) : ∃ nd, l[n]? = some nd := by
  rw [List.getElem?_eq_getElem h]
  exact ⟨_, rfl⟩

theorem alookup_cons {k : Nat} {r : Except SolverError Nat} {vt : Visited} {m : Nat} :
    alookup ((k, r) :: vt) m = if k = m then some r else alookup vt m := rfl

theorem inv_insert {vt : Visited} {seen : List Nat} {n : Nat}
    (hinv : ∀ m, alookup vt m = if m ∈ seen then some (Except.ok m) else none) :
    ∀ m, alookup ((n, Except.ok n) :: vt) m =
      if m ∈ seen ++ [n] then some (Except.ok m) else none := by
  intro m
  rw [alookup_cons]
  by_cases h : n = m
  · subst h; simp
  · rw [if_neg h, hinv m]
    by_cases hm : m ∈ seen
    · simp [hm]
    · simp [hm, Ne.symm h]

/-! Reduction lemmas for the traversal and its pure post-order mirror. -/

theorem traverse_memo {f : Formula} {fuel n : Nat} {vt : Visited} {s : Sink}
    {r : Except SolverError Nat} (h : alookup vt n = some r) :
    traverse f (fuel + 1) n vt s = (r, vt, s) := by
  simp [traverse, h]

theorem traverse_input {f : Formula} {fuel n : Nat} {vt : Visited} {s : Sink} {name : String}
    (hl : alookup vt n = none) (hg : f.nodes[n]? = some (.input name)) :
    traverse f (fuel + 1) n vt s =
      ((SmtPrinter.input s n name).1, (n, (SmtPrinter.input s n name).1) :: vt,
        (SmtPrinter.input s n name).2) := by
  simp [traverse, hl, hg]

theorem traverse_constant {f : Formula} {fuel n : Nat} {vt : Visited} {s : Sink} {v : BitVector}
    (hl : alookup vt n = none) (hg : f.nodes[n]? = some (.constant v)) :
    traverse f (fuel + 1) n vt s =
      ((SmtPrinter.constant s n v).1, (n, (SmtPrinter.constant s n v).1) :: vt,
        (SmtPrinter.constant s n v).2) := by
  simp [traverse, hl, hg]

theorem traverse_unary {f : Formula} {fuel n : Nat} {vt : Visited} {s : Sink}
    {op : BVOperator} {c : Nat}
    (hl : alookup vt n = none) (hg : f.nodes[n]? = some (.unary op c)) :
    traverse f (fuel + 1) n vt s =
      (let q := traverse f fuel c vt s
       let p := SmtPrinter.unary q.2.2 n op q.1
       (p.1, (n, p.1) :: q.2.1, p.2)) := by
  simp [traverse, hl, hg]

theorem traverse_binary {f : Formula} {fuel n : Nat} {vt : Visited} {s : Sink}
    {op : BVOperator} {l r : Nat}
    (hl : alookup vt n = none) (hg : f.nodes[n]? = some (.binary op l r)) :
    traverse f (fuel + 1) n vt s =
      (let q1 := traverse f fuel l vt s
       let q2 := traverse f fuel r q1.2.1 q1.2.2
       let p := SmtPrinter.binary q2.2.2 n op q1.1 q2.1
       (p.1, (n, p.1) :: q2.2.1, p.2)) := by
  simp [traverse, hl, hg]

theorem postAux_memo {f : Formula} {fuel n : Nat} {seen : List Nat} (h : n ∈ seen) :
    postOrderAux f (fuel + 1) n seen = seen := by
  simp [postOrderAux, h]

theorem postAux_leaf {f : Formula} {fuel n : Nat} {seen : List Nat} (h : n ∉ seen)
    (hg : (∃ name, f.nodes[n]? = some (.input name)) ∨
          (∃ v, f.nodes[n]? = some (.constant v)) ∨ f.nodes[n]? = none) :
    postOrderAux f (fuel + 1) n seen = seen ++ [n] := by
  rcases hg with ⟨name, hg⟩ | ⟨v, hg⟩ | hg <;> simp [postOrderAux, h, hg]

theorem postAux_unary {f : Formula} {fuel n : Nat} {seen : List Nat}
    {op : BVOperator} {c : Nat} (h : n ∉ seen)
    (hg : f.nodes[n]? = some (.unary op c)) :
    postOrderAux f (fuel + 1) n seen = postOrderAux f fuel c seen ++ [n] := by
  simp [postOrderAux, h, hg]

theorem postAux_binary {f : Formula} {fuel n : Nat} {seen : List Nat}
    {op : BVOperator} {l r : Nat} (h : n ∉ seen)
    (hg : f.nodes[n]? = some (.binary op l r)) :
    postOrderAux f (fuel + 1) n seen =
      postOrderAux f fuel r (postOrderAux f fuel l seen) ++ [n] := by
  simp [postOrderAux, h, hg]

/-! Structural facts about reachability and the post-order enumeration. -/

theorem reach_le {f : Formula} (hwf : Wf f) {n x : Nat} (h : Reach f n x) : x ≤ n := by
  induction h with
  | refl => exact le_refl _
  | unary hg _ ih => exact le_trans ih (le_of_lt (wf_unary hwf hg))
  | binl hg _ ih => exact le_trans ih (le_of_lt (wf_binary hwf hg).1)
  | binr hg _ ih => exact le_trans ih (le_of_lt (wf_binary hwf hg).2)

theorem closed_reach {f : Formula} {seen : List Nat} (hc : Closed f seen) :
    ∀ {n x : Nat}, Reach f n x → n ∈ seen → x ∈ seen := by
  intro n x hr
  induction hr with
  | refl => intro hn; exact hn
  | unary hg _ ih => intro hn; exact ih (hc _ hn _ (by simp [children, hg]))
  | binl hg _ ih => intro hn; exact ih (hc _ hn _ (by simp [children, hg]))
  | binr hg _ ih => intro hn; exact ih (hc _ hn _ (by simp [children, hg]))

theorem closed_append_one {f : Formula} {L : List Nat} {n : Nat}
    (hc : Closed f L) (hchild : ∀ c ∈ children f n, c ∈ L) :
    Closed f (L ++ [n]) := by
  intro p hp c hcc
  rcases List.mem_append.mp hp with h | h
  · exact List.mem_append.mpr (.inl (hc p h c hcc))
  · have hpn : p = n := by simpa using h
    subst hpn
    exact List.mem_append.mpr (.inl (hchild c hcc))

theorem nodup_append_one {L : List Nat} {n : Nat}
    (h : L.Nodup) (hn : n ∉ L) : (L ++ [n]).Nodup := by
  rw [List.nodup_append]
  refine ⟨h, List.nodup_singleton n, ?_⟩
  intro a ha hb
  have : a = n := by simpa using hb
  subst this
  exact hn ha

theorem ordered_append_one {f : Formula} {L : List Nat} {n : Nat}
    (hord : Ordered f L) (hchild : ∀ c ∈ children f n, c ∈ L) :
    Ordered f (L ++ [n]) := by
  intro k p hk c hc
  rcases lt_trichotomy k L.length with hlt | heq | hgt
  · rw [List.getElem?_append_left hlt] at hk
    rw [List.take_append_of_le_length (le_of_lt hlt)]
    exact hord k p hk c hc
  · subst heq
    rw [List.getElem?_concat_length] at hk
    injection hk with hk
    subst hk
    rw [List.take_append_of_le_length (le_refl _), List.take_length]
    exact hchild c hc
  · have hnone : (L ++ [n])[k]? = none := by
      apply List.getElem?_eq_none
      simp only [List.length_append, List.length_singleton]
      omega
    rw [hnone] at hk
    cases hk

theorem postAux_prefix (f : Formula) :
    ∀ (fuel n : Nat) (seen : List Nat), ∃ Δ, postOrderAux f fuel n seen = seen ++ Δ := by
  intro fuel
  induction fuel with
  | zero => intro n seen; exact ⟨[], by simp [postOrderAux]⟩
  | succ fuel ih =>
      intro n seen
      by_cases hmem : n ∈ seen
      · exact ⟨[], by simp [postAux_memo hmem]⟩
      · cases hg : f.nodes[n]? with
        | none => exact ⟨[n], postAux_leaf hmem (.inr (.inr hg))⟩
        | some nd =>
            cases nd with
            | input name => exact ⟨[n], postAux_leaf hmem (.inl ⟨name, hg⟩)⟩
            | constant v => exact ⟨[n], postAux_leaf hmem (.inr (.inl ⟨v, hg⟩))⟩
            | unary op c =>
                obtain ⟨Δ, hΔ⟩ := ih c seen
                exact ⟨Δ ++ [n], by rw [postAux_unary hmem hg, hΔ, List.append_assoc]⟩
            | binary op l r =>
                obtain ⟨Δ₁, h1⟩ := ih l seen
                obtain ⟨Δ₂, h2⟩ := ih r (postOrderAux f fuel l seen)
                refine ⟨Δ₁ ++ Δ₂ ++ [n], ?_⟩
                rw [postAux_binary hmem hg, h2, h1]
                simp [List.append_assoc]

/-- Combined invariants of the post-order enumeration: on well-formed formulas
it extends `seen` with nodes reachable from `n`, contains `n`, and preserves
child-closure, duplicate-freedom and the children-first ordering. -/
theorem postAux_spec {f : Formula} (hwf : Wf f) :
    ∀ (fuel n : Nat) (seen : List Nat),
      n < fuel → n < f.nodes.length → Closed f seen →
      ∃ Δ, postOrderAux f fuel n seen = seen ++ Δ ∧
        (∀ x ∈ Δ, Reach f n x) ∧
        n ∈ seen ++ Δ ∧
        Closed f (seen ++ Δ) ∧
        (seen.Nodup → (seen ++ Δ).Nodup) ∧
        (Ordered f seen → Ordered f (seen ++ Δ)) := by
  intro fuel
  induction fuel with
  | zero => intro n seen h _ _; exact absurd h (Nat.not_lt_zero n)
  | succ fuel ih =>
      intro n seen hfuel hlen hcl
      by_cases hmem : n ∈ seen
      · refine ⟨[], ?_⟩
        simp only [List.append_nil]
        exact ⟨postAux_memo hmem, by simp, hmem, hcl, fun h => h, fun h => h⟩
      · obtain ⟨nd, hg⟩ := get?_of_lt hlen
        cases nd with
        | input name =>
            have hch : ∀ x ∈ children f n, x ∈ seen := by
              intro x hx; simp [children, hg] at hx
            refine ⟨[n], postAux_leaf hmem (.inl ⟨name, hg⟩), ?_, by simp, ?_, ?_, ?_⟩
            · intro x hx
              have hx' : x = n := by simpa using hx
              subst hx'; exact Reach.refl _
            · exact closed_append_one hcl hch
            · intro h; exact nodup_append_one h hmem
            · intro h; exact ordered_append_one h hch
        | constant v =>
            have hch : ∀ x ∈ children f n, x ∈ seen := by
              intro x hx; simp [children, hg] at hx
            refine ⟨[n], postAux_leaf hmem (.inr (.inl ⟨v, hg⟩)), ?_, by simp, ?_, ?_, ?_⟩
            · intro x hx
              have hx' : x = n := by simpa using hx
              subst hx'; exact Reach.refl _
            · exact closed_append_one hcl hch
            · intro h; exact nodup_append_one h hmem
            · intro h; exact ordered_append_one h hch
        | unary op c =>
            have hcn : c < n := wf_unary hwf hg
            obtain ⟨Δ₁, he₁, hr₁, hm₁, hc₁, hn₁, ho₁⟩ :=
              ih c seen (by omega) (by omega) hcl
            have hch : ∀ x ∈ children f n, x ∈ seen ++ Δ₁ := by
              intro x hx
              have hx' : x = c := by simpa [children, hg] using hx
              subst hx'; exact hm₁
            have hnin : n ∉ seen ++ Δ₁ := by
              intro hin
              rcases List.mem_append.mp hin with h | h
              · exact hmem h
              · have := reach_le hwf (hr₁ n h); omega
            refine ⟨Δ₁ ++ [n], ?_, ?_, by simp, ?_, ?_, ?_⟩
            · rw [postAux_unary hmem hg, he₁, List.append_assoc]
            · intro x hx
              rcases List.mem_append.mp hx with hx | hx
              · exact Reach.unary hg (hr₁ x hx)
              · have hx' : x = n := by simpa using hx
                subst hx'; exact Reach.refl _
            · have h2 := closed_append_one hc₁ hch
              rwa [List.append_assoc] at h2
            · intro hnod
              have h2 := nodup_append_one (hn₁ hnod) hnin
              rwa [List.append_assoc] at h2
            · intro hord
              have h2 := ordered_append_one (ho₁ hord) hch
              rwa [List.append_assoc] at h2
        | binary op l r =>
            have hln : l < n := (wf_binary hwf hg).1
            have hrn : r < n := (wf_binary hwf hg).2
            obtain ⟨Δ₁, he₁, hr₁, hm₁, hc₁, hn₁, ho₁⟩ :=
              ih l seen (by omega) (by omega) hcl
            obtain ⟨Δ₂, he₂, hr₂, hm₂, hc₂, hn₂, ho₂⟩ :=
              ih r (seen ++ Δ₁) (by omega) (by omega) hc₁
            have hch : ∀ x ∈ children f n, x ∈ (seen ++ Δ₁) ++ Δ₂ := by
              intro x hx
              have hx' : x = l ∨ x = r := by simpa [children, hg] using hx
              rcases hx' with h | h
              · subst h; exact List.mem_append.mpr (.inl hm₁)
              · subst h; exact hm₂
            have hnin : n ∉ (seen ++ Δ₁) ++ Δ₂ := by
              intro hin
              rcases List.mem_append.mp hin with hin | hin
              · rcases List.mem_append.mp hin with hin | hin
                · exact hmem hin
                · have := reach_le hwf (hr₁ n hin); omega
              · have := reach_le hwf (hr₂ n hin); omega
            refine ⟨Δ₁ ++ (Δ₂ ++ [n]), ?_, ?_, by simp, ?_, ?_, ?_⟩
            · rw [postAux_binary hmem hg, he₁, he₂]
              simp [List.append_assoc]
            · intro x hx
              rcases List.mem_append.mp hx with hx | hx
              · exact Reach.binl hg (hr₁ x hx)
              · rcases List.mem_append.mp hx with hx | hx
                · exact Reach.binr hg (hr₂ x hx)
                · have hx' : x = n := by simpa using hx
                  subst hx'; exact Reach.refl _
            · have h2 := closed_append_one hc₂ hch
              simpa [List.append_assoc] using h2
            · intro hnod
              have h2 := nodup_append_one (hn₂ (hn₁ hnod)) hnin
              simpa [List.append_assoc] using h2
            · intro hord
              have h2 := ordered_append_one (ho₂ (ho₁ hord)) hch
              simpa [List.append_assoc] using h2

/-- Completeness of the post-order enumeration: every node reachable from `n`
appears in it. -/
theorem postAux_complete {f : Formula} (hwf : Wf f) :
    ∀ (fuel n : Nat) (seen : List Nat),
      n < fuel → n < f.nodes.length → Closed f seen →
      ∀ x, Reach f n x → x ∈ postOrderAux f fuel n seen := by
  intro fuel
  induction fuel with
  | zero => intro n seen h _ _ x _; exact absurd h (Nat.not_lt_zero n)
  | succ fuel ih =>
      intro n seen hfuel hlen hcl x hr
      by_cases hmem : n ∈ seen
      · rw [postAux_memo hmem]
        exact closed_reach hcl hr hmem
      · cases hr with
        | refl =>
            obtain ⟨nd, hg⟩ := get?_of_lt hlen
            cases nd with
            | input name => rw [postAux_leaf hmem (.inl ⟨name, hg⟩)]; simp
            | constant v => rw [postAux_leaf hmem (.inr (.inl ⟨v, hg⟩))]; simp
            | unary op c => rw [postAux_unary hmem hg]; simp
            | binary op l r => rw [postAux_binary hmem hg]; simp
        | @unary _ c _ op hg hr' =>
            have hcn : c < n := wf_unary hwf hg
            rw [postAux_unary hmem hg]
            exact List.mem_append.mpr (.inl (ih c seen (by omega) (by omega) hcl x hr'))
        | @binl _ l r _ op hg hr' =>
            have hln : l < n := (wf_binary hwf hg).1
            rw [postAux_binary hmem hg]
            obtain ⟨Δ₂, he₂⟩ := postAux_prefix f fuel r (postOrderAux f fuel l seen)
            have hx : x ∈ postOrderAux f fuel l seen :=
              ih l seen (by omega) (by omega) hcl x hr'
            have hx₂ : x ∈ postOrderAux f fuel r (postOrderAux f fuel l seen) := by
              rw [he₂]; exact List.mem_append.mpr (.inl hx)
            exact List.mem_append.mpr (.inl hx₂)
        | @binr _ l r _ op hg hr' =>
            have hln : l < n := (wf_binary hwf hg).1
            have hrn : r < n := (wf_binary hwf hg).2
            obtain ⟨Δ₁, he₁, _, _, hc₁, _, _⟩ :=
              postAux_spec hwf fuel l seen (by omega) (by omega) hcl
            rw [postAux_binary hmem hg]
            have hx₂ : x ∈ postOrderAux f fuel r (postOrderAux f fuel l seen) := by
              rw [he₁]
              exact ih r (seen ++ Δ₁) (by omega) (by omega) hc₁ x hr'
            exact List.mem_append.mpr (.inl hx₂)

/-- Correspondence between the effectful traversal and the pure post-order
enumeration on a sink whose writes succeed: the traversal returns the node id,
keeps the memoization map in step with the enumeration, and appends exactly
one chunk per newly visited node, in post-order. -/
theorem traverse_success {f : Formula} (hwf : Wf f) :
    ∀ (fuel n : Nat) (vt : Visited) (seen : List Nat) (s : Sink),
      n < fuel → n < f.nodes.length → s.failsAt = none →
      (∀ m, alookup vt m = if m ∈ seen then some (Except.ok m) else none) →
      ∃ Δ vt' s',
        postOrderAux f fuel n seen = seen ++ Δ ∧
        traverse f fuel n vt s = (.ok n, vt', s') ∧
        (∀ m, alookup vt' m = if m ∈ seen ++ Δ then some (Except.ok m) else none) ∧
        s'.written = s.written ++ Δ.map (chunkStr f) ∧
        s'.failsAt = none := by
  intro fuel
  induction fuel with
  | zero => intro n vt seen s h _ _ _; exact absurd h (Nat.not_lt_zero n)
  | succ fuel ih =>
      intro n vt seen s hfuel hlen hfail hinv
      by_cases hmem : n ∈ seen
      · have hlk : alookup vt n = some (.ok n) := by rw [hinv n, if_pos hmem]
        refine ⟨[], vt, s, by simp [postAux_memo hmem], traverse_memo hlk, ?_, by simp, hfail⟩
        simpa using hinv
      · have hlk : alookup vt n = none := by rw [hinv n, if_neg hmem]
        obtain ⟨nd, hg⟩ := get?_of_lt hlen
        cases nd with
        | input name =>
            refine ⟨[n], (n, .ok n) :: vt,
              { written := s.written ++ [chunkOfLines [inputLine n name]],
                failsAt := none, count := s.count + 1 },
              postAux_leaf hmem (.inl ⟨name, hg⟩), ?_, inv_insert hinv, ?_, rfl⟩
            · rw [traverse_input hlk hg, SmtPrinter.input_ok hfail]
            · simp [chunkStr, nodeLines, hg]
        | constant v =>
            refine ⟨[n], (n, .ok n) :: vt,
              { written := s.written ++ [chunkOfLines [declLine n, assertConstLine n v.val]],
                failsAt := none, count := s.count + 1 },
              postAux_leaf hmem (.inr (.inl ⟨v, hg⟩)), ?_, inv_insert hinv, ?_, rfl⟩
            · rw [traverse_constant hlk hg, SmtPrinter.constant_ok hfail]
            · simp [chunkStr, nodeLines, hg]
        | unary op c =>
            have hcn : c < n := wf_unary hwf hg
            obtain ⟨Δ₁, vt₁, s₁, he₁, ht₁, hinv₁, hw₁, hf₁⟩ :=
              ih c vt seen s (by omega) (by omega) hfail hinv
            refine ⟨Δ₁ ++ [n], (n, .ok n) :: vt₁,
              { written := s₁.written ++ [chunkOfLines [declLine n, assertUnaryLine n op c]],
                failsAt := none, count := s₁.count + 1 }, ?_, ?_, ?_, ?_, rfl⟩
            · rw [postAux_unary hmem hg, he₁, List.append_assoc]
            · rw [traverse_unary hlk hg]
              simp only [ht₁]
              rw [SmtPrinter.unary_ok hf₁]
            · have h2 := inv_insert (n := n) hinv₁
              simpa [List.append_assoc] using h2
            · rw [hw₁]
              simp [chunkStr, nodeLines, hg]
        | binary op l r =>
            have hln : l < n := (wf_binary hwf hg).1
            have hrn : r < n := (wf_binary hwf hg).2
            obtain ⟨Δ₁, vt₁, s₁, he₁, ht₁, hinv₁, hw₁, hf₁⟩ :=
              ih l vt seen s (by omega) (by omega) hfail hinv
            obtain ⟨Δ₂, vt₂, s₂, he₂, ht₂, hinv₂, hw₂, hf₂⟩ :=
              ih r vt₁ (seen ++ Δ₁) s₁ (by omega) (by omega) hf₁ hinv₁
            refine ⟨Δ₁ ++ (Δ₂ ++ [n]), (n, .ok n) :: vt₂,
              { written := s₂.written ++ [chunkOfLines [declLine n, assertBinaryLine n op l r]],
                failsAt := none, count := s₂.count + 1 }, ?_, ?_, ?_, ?_, rfl⟩
            · rw [postAux_binary hmem hg, he₁, he₂]
              simp [List.append_assoc]
            · rw [traverse_binary hlk hg]
              simp only [ht₁]
              simp only [ht₂]
              rw [SmtPrinter.binary_ok hf₂]
            · have h2 := inv_insert (n := n) hinv₂
              simpa [List.append_assoc] using h2
            · rw [hw₂, hw₁]
              simp [chunkStr, nodeLines, hg, List.append_assoc]

/-- Full description of a successful solve call on a well-formed formula and a
sink whose writes succeed: the result is the SatUnknown sentinel and the sink
gains exactly the push line, one chunk per node in post-order, and the closing
block. -/
theorem solve_output {f : Formula} {s : Sink} (hwf : Wf f) (hs : s.failsAt = none) :
    ∃ s3, solve_impl f s = (.error .satUnknown, s3) ∧
      s3.written = s.written ++ ["(push 1)\n"] ++ (postOrder f).map (chunkStr f)
        ++ ["(check-sat)\n(get-model)\n(pop 1)\n"] ∧
      s3.failsAt = none := by
  have hinv0 : ∀ m, alookup [] m = if m ∈ ([] : List Nat) then some (Except.ok m) else none := by
    intro m; simp [alookup]
  obtain ⟨Δ, vt', s', he, ht, _, hw, hf⟩ :=
    traverse_success hwf (f.root + 1) f.root [] []
      { written := s.written ++ ["(push 1)\n"], failsAt := none, count := s.count + 1 }
      (Nat.lt_succ_self _) (wf_root hwf) rfl hinv0
  have hΔ : postOrder f = Δ := by
    unfold postOrder
    rw [he]
    simp
  refine ⟨{ written := s'.written ++ ["(check-sat)\n(get-model)\n(pop 1)\n"],
            failsAt := none, count := s'.count + 1 }, ?_, ?_, rfl⟩
  · unfold solve_impl
    rw [Sink.write_none hs]
    dsimp only
    rw [ht]
    dsimp only
    rw [Sink.write_none hf]
  · dsimp only
    rw [hw, hΔ]

/-- Every exit path of solve_impl carries an error: the push write error, the
traversal's error, the closing write error, or the SatUnknown sentinel. -/
theorem solve_not_ok (f : Formula) (s : Sink) (a : Option Assignment) :
    (solve_impl f s).1 ≠ .ok a := by
  unfold solve_impl
  cases h1 : s.write "(push 1)\n" with
  | error e => simp
  | ok s1 =>
      dsimp only
      rcases htr : traverse f (f.root + 1) f.root [] s1 with ⟨r, vt, s2⟩
      cases r with
      | error e => simp
      | ok m =>
          dsimp only
          cases h3 : s2.write "(check-sat)\n(get-model)\n(pop 1)\n" with
          | error e => simp
          | ok s3 => simp

theorem smt_binary_left_error (s : Sink) (idx : Nat) (op : BVOperator) (e : SolverError)
    (rhs : Except SolverError Nat) :
    SmtPrinter.binary s idx op (.error e) rhs = (.error e, s) := rfl

theorem smt_binary_right_error (s : Sink) (idx : Nat) (op : BVOperator) (l : Nat)
    (e : SolverError) :
    SmtPrinter.binary s idx op (.ok l) (.error e) = (.error e, s) := rfl

/-! Line-level machinery: the emitted chunks are newline-terminated lines, and
none of the node lines is a bare push or pop command. -/

/-- A newline-free character list (one line's content). -/
abbrev noNl (l : List Char) : Prop := '\n' ∉ l

theorem chunkOfLines_toList (ls : List (List Char)) :
    (chunkOfLines ls).toList = joinLines ls := rfl

theorem splitLines_ne_nil (cs : List Char) : splitLines cs ≠ [] := by
  cases cs with
  | nil => simp [splitLines]
  | cons c cs =>
      unfold splitLines
      by_cases h : c = '\n'
      · simp [h]
      · simp only [if_neg h]
        cases splitLines cs <;> simp

theorem splitLines_cons (c : Char) (cs : List Char) :
    splitLines (c :: cs) =
      if c = '\n' then [] :: splitLines cs
      else
        match splitLines cs with
        | [] => [[c]]
        | l :: ls => (c :: l) :: ls := rfl

theorem splitLines_line (l : List Char) (hl : noNl l) (rest : List Char) :
    splitLines (l ++ '\n' :: rest) = l :: splitLines rest := by
  induction l with
  | nil => simp [splitLines]
  | cons c cl ih =>
      have hc : c ≠ '\n' := by
        intro h
        exact hl (h ▸ List.mem_cons_self c cl)
      have hl' : noNl cl := fun h => hl (List.mem_cons_of_mem c h)
      rw [List.cons_append, splitLines_cons, if_neg hc, ih hl']

theorem splitLines_joinLines (ls : List (List Char)) (h : ∀ l ∈ ls, noNl l)
    (rest : List Char) :
    splitLines (joinLines ls ++ rest) = ls ++ splitLines rest := by
  induction ls with
  | nil => simp [joinLines]
  | cons l ls ih =>
      have h1 : noNl l := h l (List.mem_cons_self l ls)
      have h2 : ∀ x ∈ ls, noNl x := fun x hx => h x (List.mem_cons_of_mem l hx)
      have hj : joinLines (l :: ls) = l ++ '\n' :: joinLines ls := by
        simp [joinLines]
      rw [hj, List.append_assoc, List.cons_append,
        splitLines_line l h1 (joinLines ls ++ rest), ih h2, List.cons_append]

theorem noNl_append {a b : List Char} (ha : noNl a) (hb : noNl b) : noNl (a ++ b) := by
  intro h
  rcases List.mem_append.mp h with h | h
  · exact ha h
  · exact hb h

theorem digitChar_isDigit {d : Nat} (h : d < 10) : (digitChar d).isDigit := by
  interval_cases d <;> decide

theorem natCharsAux_digits : ∀ (fuel n : Nat), ∀ c ∈ natCharsAux fuel n, c.isDigit := by
  intro fuel
  induction fuel with
  | zero => intro n c h; simp [natCharsAux] at h
  | succ fuel ih =>
      intro n c h
      unfold natCharsAux at h
      by_cases h10 : n < 10
      · rw [if_pos h10] at h
        have hc : c = digitChar n := by simpa using h
        subst hc
        exact digitChar_isDigit h10
      · rw [if_neg h10] at h
        rcases List.mem_append.mp h with h | h
        · exact ih _ c h
        · have hc : c = digitChar (n % 10) := by simpa using h
          subst hc
          exact digitChar_isDigit (Nat.mod_lt _ (by omega))

theorem natChars_noNl (n : Nat) : noNl (natChars n) := by
  intro h
  exact absurd (natCharsAux_digits (n + 1) n '\n' h) (by decide)

theorem escChar_noNl (c : Char) : ∀ x ∈ escChar c, x ≠ '\n' := by
  intro x hx he
  subst he
  unfold escChar at hx
  split_ifs at hx with h1 h2 h3 h4 h5
  · simp at hx
  · simp at hx
  · simp at hx
  · simp at hx
  · simp at hx
  · have hc : c = '\n' := (List.mem_singleton.mp hx).symm
    exact h3 hc

theorem escDebug_noNl (name : String) : noNl (escDebug name) := by
  intro h
  unfold escDebug at h
  rcases List.mem_cons.mp h with h | h
  · exact absurd h (by decide)
  · rcases List.mem_append.mp h with h | h
    · obtain ⟨c, _, hc⟩ := List.mem_flatMap.mp h
      exact escChar_noNl c '\n' hc rfl
    · exact absurd (by simpa using h : ('\n' : Char) = '"') (by decide)

theorem to_smt_noNl (op : BVOperator) : noNl (to_smt op).toList := by
  cases op <;> decide

theorem declLine_noNl (i : Nat) : noNl (declLine i) :=
  noNl_append (noNl_append (by decide) (natChars_noNl i)) (by decide)

theorem inputLine_noNl (i : Nat) (name : String) : noNl (inputLine i name) :=
  noNl_append (noNl_append (declLine_noNl i) (by decide)) (escDebug_noNl name)

theorem assertConstLine_noNl (i v : Nat) : noNl (assertConstLine i v) :=
  noNl_append (noNl_append (noNl_append (noNl_append (by decide)
    (natChars_noNl i)) (by decide)) (natChars_noNl v)) (by decide)

theorem assertUnaryLine_noNl (i : Nat) (op : BVOperator) (c : Nat) :
    noNl (assertUnaryLine i op c) :=
  noNl_append (noNl_append (noNl_append (noNl_append (noNl_append (noNl_append
    (by decide) (natChars_noNl i)) (by decide)) (to_smt_noNl op)) (by decide))
    (natChars_noNl c)) (by decide)

theorem assertBinaryLine_noNl (i : Nat) (op : BVOperator) (l r : Nat) :
    noNl (assertBinaryLine i op l r) :=
  noNl_append (noNl_append (noNl_append (noNl_append (noNl_append (noNl_append
    (noNl_append (noNl_append (by decide) (natChars_noNl i)) (by decide))
    (to_smt_noNl op)) (by decide)) (natChars_noNl l)) (by decide))
    (natChars_noNl r)) (by decide)

theorem nodeLines_noNl (f : Formula) (i : Nat) : ∀ l ∈ nodeLines f i, noNl l := by
  intro l hl
  unfold nodeLines at hl
  cases hg : f.nodes[i]? with
  | none => rw [hg] at hl; simp at hl
  | some nd =>
      rw [hg] at hl
      cases nd with
      | input name =>
          have h2 : l = inputLine i name := by simpa using hl
          subst h2
          exact inputLine_noNl i name
      | constant v =>
          rcases (by simpa using hl : l = declLine i ∨ l = assertConstLine i v.val) with h2 | h2
          · subst h2; exact declLine_noNl i
          · subst h2; exact assertConstLine_noNl i v.val
      | unary op c =>
          rcases (by simpa using hl : l = declLine i ∨ l = assertUnaryLine i op c) with h2 | h2
          · subst h2; exact declLine_noNl i
          · subst h2; exact assertUnaryLine_noNl i op c
      | binary op lc rc =>
          rcases (by simpa using hl : l = declLine i ∨ l = assertBinaryLine i op lc rc) with h2 | h2
          · subst h2; exact declLine_noNl i
          · subst h2; exact assertBinaryLine_noNl i op lc rc

theorem second_ne {c d : Char} {xs ys : List Char} (h : c ≠ d) (p : Char) :
    p :: c :: xs ≠ p :: d :: ys := by
  intro he
  injection he with _ he
  injection he with he _
  exact h he

theorem nodeLines_ne_push_pop (f : Formula) (i : Nat) :
    ∀ l ∈ nodeLines f i, l ≠ "(push 1)".toList ∧ l ≠ "(pop 1)".toList := by
  have hdecl : ∀ j : Nat, declLine j ≠ "(push 1)".toList ∧ declLine j ≠ "(pop 1)".toList :=
    fun j => ⟨second_ne (by decide) '(', second_ne (by decide) '('⟩
  have hinput : ∀ (j : Nat) (name : String),
      inputLine j name ≠ "(push 1)".toList ∧ inputLine j name ≠ "(pop 1)".toList :=
    fun j name => ⟨second_ne (by decide) '(', second_ne (by decide) '('⟩
  have hconst : ∀ j v : Nat,
      assertConstLine j v ≠ "(push 1)".toList ∧ assertConstLine j v ≠ "(pop 1)".toList :=
    fun j v => ⟨second_ne (by decide) '(', second_ne (by decide) '('⟩
  have hun : ∀ (j : Nat) (op : BVOperator) (c : Nat),
      assertUnaryLine j op c ≠ "(push 1)".toList ∧ assertUnaryLine j op c ≠ "(pop 1)".toList :=
    fun j op c => ⟨second_ne (by decide) '(', second_ne (by decide) '('⟩
  have hbin : ∀ (j : Nat) (op : BVOperator) (lc rc : Nat),
      assertBinaryLine j op lc rc ≠ "(push 1)".toList ∧
        assertBinaryLine j op lc rc ≠ "(pop 1)".toList :=
    fun j op lc rc => ⟨second_ne (by decide) '(', second_ne (by decide) '('⟩
  intro l hl
  unfold nodeLines at hl
  cases hg : f.nodes[i]? with
  | none => rw [hg] at hl; simp at hl
  | some nd =>
      rw [hg] at hl
      cases nd with
      | input name =>
          have h2 : l = inputLine i name := by simpa using hl
          subst h2
          exact hinput i name
      | constant v =>
          rcases (by simpa using hl : l = declLine i ∨ l = assertConstLine i v.val) with h2 | h2
          · subst h2; exact hdecl i
          · subst h2; exact hconst i v.val
      | unary op c =>
          rcases (by simpa using hl : l = declLine i ∨ l = assertUnaryLine i op c) with h2 | h2
          · subst h2; exact hdecl i
          · subst h2; exact hun i op c
      | binary op lc rc =>
          rcases (by simpa using hl : l = declLine i ∨ l = assertBinaryLine i op lc rc) with h2 | h2
          · subst h2; exact hdecl i
          · subst h2; exact hbin i op lc rc

theorem chars_cons (a : String) (rest : List String) :
    chars (a :: rest) = a.toList ++ chars rest := by
  simp [chars]

theorem chars_append (a b : List String) : chars (a ++ b) = chars a ++ chars b := by
  simp [chars]

theorem splitLines_chunks (f : Formula) :
    ∀ (L : List Nat) (rest : List Char),
      splitLines (chars (L.map (chunkStr f)) ++ rest) =
        L.flatMap (nodeLines f) ++ splitLines rest := by
  intro L
  induction L with
  | nil => intro rest; simp [chars]
  | cons i L ih =>
      intro rest
      rw [List.map_cons, chars_cons]
      rw [show (chunkStr f i).toList = joinLines (nodeLines f i) from rfl]
      rw [List.append_assoc, splitLines_joinLines _ (nodeLines_noNl f i), ih]
      simp

/-- The lines appended by one successful solve call: the push command, the node
lines in post-order, the closing three commands, and the empty suffix after
the final newline. -/
theorem solve_lines {f : Formula} {s : Sink} (hwf : Wf f) (hs : s.failsAt = none) :
    splitLines (chars (appendedOutput f s)) =
      "(push 1)".toList :: ((postOrder f).flatMap (nodeLines f)
        ++ ["(check-sat)".toList, "(get-model)".toList, "(pop 1)".toList, []]) := by
  obtain ⟨s3, hsolve, hw, _⟩ := solve_output hwf hs
  have happ : appendedOutput f s =
      ["(push 1)\n"] ++ ((postOrder f).map (chunkStr f)
        ++ ["(check-sat)\n(get-model)\n(pop 1)\n"]) := by
    unfold appendedOutput
    rw [hsolve]
    dsimp only
    rw [hw]
    have h2 : s.written ++ ["(push 1)\n"] ++ (postOrder f).map (chunkStr f)
        ++ ["(check-sat)\n(get-model)\n(pop 1)\n"]
        = s.written ++ (["(push 1)\n"] ++ ((postOrder f).map (chunkStr f)
            ++ ["(check-sat)\n(get-model)\n(pop 1)\n"])) := by
      simp [List.append_assoc]
    rw [h2, List.drop_left]
  rw [happ, chars_append, chars_append]
  have hc1 : chars ["(push 1)\n"] = "(push 1)".toList ++ ['\n'] := by decide
  have hc2 : chars ["(check-sat)\n(get-model)\n(pop 1)\n"]
      = "(check-sat)\n(get-model)\n(pop 1)\n".toList := by
    simp [chars]
  rw [hc1, hc2, List.append_assoc, List.singleton_append]
  rw [splitLines_line _ (by decide), splitLines_chunks f (postOrder f)]
  have htail : splitLines "(check-sat)\n(get-model)\n(pop 1)\n".toList
      = ["(check-sat)".toList, "(get-model)".toList, "(pop 1)".toList, []] := by decide
  rw [htail]

/-- The post-order enumeration of a well-formed formula has no duplicates,
contains exactly the nodes reachable from the root, and lists children before
their parents. -/
theorem postOrder_spec {f : Formula} (hwf : Wf f) :
    (postOrder f).Nodup ∧ (∀ x, x ∈ postOrder f ↔ Reach f f.root x) ∧
      Ordered f (postOrder f) := by
  have hcl : Closed f ([] : List Nat) := by intro p hp; simp at hp
  obtain ⟨Δ, he, hr, _, _, hn, ho⟩ :=
    postAux_spec hwf (f.root + 1) f.root [] (Nat.lt_succ_self _) (wf_root hwf) hcl
  have hpo : postOrder f = Δ := by unfold postOrder; rw [he]; simp
  refine ⟨?_, ?_, ?_⟩
  · rw [hpo]
    simpa using hn List.nodup_nil
  · intro x
    constructor
    · intro hx
      exact hr x (by rwa [hpo] at hx)
    · intro hx
      have h2 := postAux_complete hwf (f.root + 1) f.root []
        (Nat.lt_succ_self _) (wf_root hwf) hcl x hx
      unfold postOrder
      exact h2
  · rw [hpo]
    have hordnil : Ordered f ([] : List Nat) := by intro k p hk; simp at hk
    simpa using ho hordnil

/-! Reductions of the constructor and the CLI validators. -/

theorem new_mem {fs : FS} {p : String} (hp : p ∈ fs.files) :
    ExternalSolver.new fs p =
      (.ok ⟨{ written := ["(set-logic QF_BV)\n"], failsAt := none, count := 1 }⟩, fs) := by
  unfold ExternalSolver.new fileOpen
  rw [if_pos hp]
  rfl

theorem new_not_mem {fs : FS} {p : String} (hp : p ∉ fs.files) :
    ExternalSolver.new fs p = (.error (.ioError 2), fs) := by
  unfold ExternalSolver.new fileOpen
  rw [if_neg hp]

theorem parseU64_lt {v : String} {n : Nat} (h : parseU64 v = .ok n) : n < 2 ^ 64 := by
  unfold parseU64 at h
  dsimp only at h
  split_ifs at h with h1 h2 h3 h4
  · injection h with h5
    omega

/-! Concrete instances used by witnesses and counterexamples. -/

/-- Scenario S1 of the spec: `Equals(Input "x", Constant 42)`. -/
def exampleFormula : Formula := ⟨[.input "x", .constant ⟨42⟩, .binary .equals 0 1], 2⟩

/-- An initially empty sink whose writes always succeed. -/
def okSink : Sink := { written := [], failsAt := none, count := 0 }

/-- A single-input formula. -/
def oneInputFormula : Formula := ⟨[.input "x"], 0⟩

/-- A sink whose second write, and every write after it, fails. -/
def failingSink : Sink := { written := [], failsAt := some 1, count := 0 }

/-! The claims. -/

/-- C1, amended: every `(push 1)` line written by a solve_impl call whose
traversal and writes all succeed is matched by exactly one `(pop 1)` line in
the bytes the call appends before returning; when the traversal or an
intermediate write fails, solve_impl instead returns that error without
emitting the matching `(pop 1)` (see the counterexample). -/
theorem c1_push_pop_balance (f : Formula) (s : Sink) (hwf : Wf f)
    (hs : s.failsAt = none) :
    lineCount (appendedOutput f s) "(push 1)" = 1 ∧
    lineCount (appendedOutput f s) "(pop 1)" = 1 := by
  have hl := solve_lines hwf hs
  constructor
  · unfold lineCount
    rw [hl, List.count_cons, List.count_append]
    have hbody : ((postOrder f).flatMap (nodeLines f)).count "(push 1)".toList = 0 := by
      rw [List.count_eq_zero]
      intro hmem
      obtain ⟨i, _, hi⟩ := List.mem_flatMap.mp hmem
      exact (nodeLines_ne_push_pop f i _ hi).1 rfl
    rw [hbody]
    decide
  · unfold lineCount
    rw [hl, List.count_cons, List.count_append]
    have hbody : ((postOrder f).flatMap (nodeLines f)).count "(pop 1)".toList = 0 := by
      rw [List.count_eq_zero]
      intro hmem
      obtain ⟨i, _, hi⟩ := List.mem_flatMap.mp hmem
      exact (nodeLines_ne_push_pop f i _ hi).2 rfl
    rw [hbody]
    decide

/-- C1 witness: the amended balance at the scenario-S1 formula and a fresh
sink. -/
theorem c1_push_pop_balance_witness :
    Wf exampleFormula ∧ okSink.failsAt = none ∧
      (lineCount (appendedOutput exampleFormula okSink) "(push 1)" = 1 ∧
       lineCount (appendedOutput exampleFormula okSink) "(pop 1)" = 1) :=
  ⟨by decide, rfl, c1_push_pop_balance exampleFormula okSink (by decide) rfl⟩

/-- C1 counterexample: on a sink whose second write fails, the solve call
emits the `(push 1)` line and returns the write error without ever emitting a
`(pop 1)` line, refuting the claim read to cover error returns. -/
theorem c1_counterexample :
    lineCount (appendedOutput oneInputFormula failingSink) "(push 1)" = 1 ∧
    lineCount (appendedOutput oneInputFormula failingSink) "(pop 1)" = 0 := by
  decide

/-- C2: on a well-formed formula and a sink whose writes succeed, the chunks a
solve_impl call appends are exactly the `(push 1)` line, one
declaration/assertion chunk per node in first-visit post-order, and the
closing `(check-sat)\n(get-model)\n(pop 1)` block; the post-order enumeration
is duplicate-free, contains exactly the nodes reachable from the root, and
lists children before their parents. -/
theorem c2_solve_output (f : Formula) (s : Sink) (hwf : Wf f)
    (hs : s.failsAt = none) :
    (solve_impl f s).2.written
        = s.written ++ ["(push 1)\n"] ++ (postOrder f).map (chunkStr f)
          ++ ["(check-sat)\n(get-model)\n(pop 1)\n"] ∧
    (postOrder f).Nodup ∧
    (∀ x, x ∈ postOrder f ↔ Reach f f.root x) ∧
    Ordered f (postOrder f) := by
  obtain ⟨s3, hsolve, hw, _⟩ := solve_output hwf hs
  refine ⟨?_, postOrder_spec hwf⟩
  rw [hsolve]
  exact hw

/-- C2 witness: the exact output at the scenario-S1 formula and a fresh sink. -/
theorem c2_solve_output_witness :
    Wf exampleFormula ∧ okSink.failsAt = none ∧
      ((solve_impl exampleFormula okSink).2.written
          = okSink.written ++ ["(push 1)\n"]
            ++ (postOrder exampleFormula).map (chunkStr exampleFormula)
            ++ ["(check-sat)\n(get-model)\n(pop 1)\n"] ∧
        (postOrder exampleFormula).Nodup ∧
        (∀ x, x ∈ postOrder exampleFormula ↔
          Reach exampleFormula exampleFormula.root x) ∧
        Ordered exampleFormula (postOrder exampleFormula)) :=
  ⟨by decide, rfl, c2_solve_output exampleFormula okSink (by decide) rfl⟩

/-- C3, amended: when the left child result carries an error, SmtPrinter.binary
forwards exactly that error (the right child's error, if any, is discarded);
the right child's error is forwarded only when the left child succeeded.  In
either case nothing is written and the sink is unchanged. -/
theorem c3_binary_error_forwarding :
    (∀ (s : Sink) (idx : Nat) (op : BVOperator) (e : SolverError)
        (rhs : Except SolverError Nat),
      SmtPrinter.binary s idx op (.error e) rhs = (.error e, s)) ∧
    (∀ (s : Sink) (idx : Nat) (op : BVOperator) (l : Nat) (e : SolverError),
      SmtPrinter.binary s idx op (.ok l) (.error e) = (.error e, s)) :=
  ⟨smt_binary_left_error, smt_binary_right_error⟩

/-- C3 counterexample: with a SatUnknown error on the left child and a distinct
I/O error on the right child, the callback's result does not carry both errors
— it carries only the left one — refuting the claim that both are forwarded. -/
theorem c3_counterexample :
    ¬ ((SmtPrinter.binary { written := [], failsAt := none, count := 0 } 2 .add
          (.error .satUnknown) (.error (.ioError 7))).1 = .error .satUnknown ∧
       (SmtPrinter.binary { written := [], failsAt := none, count := 0 } 2 .add
          (.error .satUnknown) (.error (.ioError 7))).1 = .error (.ioError 7)) := by
  decide

/-- C4: on a well-formed formula, when every write to the sink succeeds,
solve_impl ends with the SatUnknown sentinel; moreover no call whatsoever
returns an Ok result, so neither a satisfying assignment (Ok (some _)) nor an
Unsat outcome (Ok none) is ever produced. -/
theorem c4_returns_sat_unknown (f : Formula) (s : Sink) (hwf : Wf f)
    (hs : s.failsAt = none) :
    (solve_impl f s).1 = .error .satUnknown ∧
    ∀ (g : Formula) (t : Sink) (a : Option Assignment), (solve_impl g t).1 ≠ .ok a := by
  obtain ⟨s3, hsolve, _, _⟩ := solve_output hwf hs
  exact ⟨by rw [hsolve], solve_not_ok⟩

/-- C4 witness at the scenario-S1 formula and a fresh sink. -/
theorem c4_returns_sat_unknown_witness :
    Wf exampleFormula ∧ okSink.failsAt = none ∧
      ((solve_impl exampleFormula okSink).1 = .error .satUnknown ∧
       ∀ (g : Formula) (t : Sink) (a : Option Assignment),
         (solve_impl g t).1 ≠ .ok a) :=
  ⟨by decide, rfl, c4_returns_sat_unknown exampleFormula okSink (by decide) rfl⟩

/-- C5: the operator-to-token mapping is exactly the advertised one and is
total over the closed operator set. -/
theorem c5_operator_mapping :
    to_smt .add = "bvadd" ∧ to_smt .sub = "bvsub" ∧ to_smt .mul = "bvmul" ∧
    to_smt .divu = "bvudiv" ∧ to_smt .remu = "bvurem" ∧ to_smt .not = "not" ∧
    to_smt .equals = "=" ∧ to_smt .bitwiseAnd = "bvand" ∧ to_smt .sltu = "bvult" ∧
    ∀ op : BVOperator,
      to_smt op ∈ (["bvadd", "bvsub", "bvmul", "bvudiv", "bvurem", "not", "=",
        "bvand", "bvult"] : List String) := by
  refine ⟨rfl, rfl, rfl, rfl, rfl, rfl, rfl, rfl, rfl, ?_⟩
  intro op
  cases op <;> simp [to_smt]

/-- C6: every successful construction of an ExternalSolver — new over a file
path as well as the Default instance over standard output — leaves exactly the
`(set-logic QF_BV)` line in the sink at construction time, before any solve
call. -/
theorem c6_writes_set_logic :
    (∀ (fs : FS) (p : String) (sol : ExternalSolver) (fs' : FS),
        ExternalSolver.new fs p = (.ok sol, fs') →
          sol.output.written = ["(set-logic QF_BV)\n"]) ∧
    ExternalSolver.defaultSolver.output.written = ["(set-logic QF_BV)\n"] := by
  constructor
  · intro fs p sol fs' h
    by_cases hp : p ∈ fs.files
    · rw [new_mem hp] at h
      injection h with h1 h2
      injection h1 with h1
      subst h1
      rfl
    · rw [new_not_mem hp] at h
      injection h with h1 _
      exact absurd h1 (by simp)
  · rfl

/-- C6 witness: a concrete successful construction carries exactly the init
line. -/
theorem c6_writes_set_logic_witness :
    ExternalSolver.new ⟨["trace.smt"]⟩ "trace.smt"
        = (.ok ⟨{ written := ["(set-logic QF_BV)\n"], failsAt := none, count := 1 }⟩,
            (⟨["trace.smt"]⟩ : FS)) ∧
      (ExternalSolver.mk
          { written := ["(set-logic QF_BV)\n"], failsAt := none, count := 1 }
        ).output.written = ["(set-logic QF_BV)\n"] :=
  ⟨by decide,
    c6_writes_set_logic.1 ⟨["trace.smt"]⟩ "trace.smt"
      ⟨{ written := ["(set-logic QF_BV)\n"], failsAt := none, count := 1 }⟩
      ⟨["trace.smt"]⟩ (by decide)⟩

/-- C7 counterexample: the max-execution-depth validator is the plain u64
parse check, which accepts the string "0"; the value 0 is not positive, so
"accepts exactly the positive integers" fails at this input. -/
theorem c7_counterexample : is "0" = .ok () ∧ parseU64 "0" = .ok 0 := by decide

/-- C7, amended: the max-execution-depth validator accepts a value exactly
when it parses as an unsigned 64-bit integer (an optionally plus-signed digit
string whose value is below 2^64); in particular 0 is accepted, while
negative, empty, malformed and out-of-range values are rejected. -/
theorem c7_depth_validator :
    (∀ v, is v = .ok () ↔ ∃ n, parseU64 v = .ok n ∧ n < 2 ^ 64) ∧
    is "0" = .ok () ∧ is "+7" = .ok () ∧ is "-1" ≠ .ok () ∧
    is "" ≠ .ok () ∧ is "18446744073709551616" ≠ .ok () := by
  refine ⟨?_, by decide, by decide, by decide, by decide, by decide⟩
  intro v
  constructor
  · intro h
    unfold is at h
    cases hp : parseU64 v with
    | ok n => exact ⟨n, rfl, parseU64_lt hp⟩
    | error e => rw [hp] at h; exact absurd h (by simp)
  · rintro ⟨n, hp, -⟩
    unfold is
    rw [hp]

/-- C8: the memory-size validator accepts a value exactly when it parses as an
unsigned 64-bit integer lying in the inclusive range 1..=1024; in particular
"0", "-1" and "2048" are all rejected. -/
theorem c8_memory_validator :
    (∀ v, is_valid_memory_size v = .ok () ↔
      ∃ n, parseU64 v = .ok n ∧ 1 ≤ n ∧ n ≤ 1024) ∧
    is_valid_memory_size "0" ≠ .ok () ∧
    is_valid_memory_size "-1" ≠ .ok () ∧
    is_valid_memory_size "2048" ≠ .ok () := by
  refine ⟨?_, by decide, by decide, by decide⟩
  intro v
  unfold is_valid_memory_size is
  cases hp : parseU64 v with
  | error e => simp
  | ok n =>
      dsimp only
      by_cases hr : 1 ≤ n ∧ n ≤ 1024
      · rw [if_pos hr]
        constructor
        · intro _; exact ⟨n, rfl, hr⟩
        · intro _; rfl
      · rw [if_neg hr]
        constructor
        · intro h; exact absurd h (by simp)
        · rintro ⟨m, hm, h1, h2⟩
          injection hm with hm
          exact absurd ⟨h1, h2⟩ (hm ▸ hr)

/-- C9: the copy-init-ratio validator accepts a parse outcome exactly when it
is a finite value inside the inclusive range 0.0..=1.0; both boundary values
are accepted, and NaN, the infinities, finite values outside the range, and
parse failures are all rejected. -/
theorem c9_ratio_validator :
    (∀ v, is_ratio v = .ok () ↔ ∃ q : ℚ, v = some (.num q) ∧ 0 ≤ q ∧ q ≤ 1) ∧
    is_ratio (some (.num 0)) = .ok () ∧ is_ratio (some (.num 1)) = .ok () ∧
    is_ratio (some .nan) ≠ .ok () ∧ is_ratio (some .inf) ≠ .ok () ∧
    is_ratio (some .ninf) ≠ .ok () ∧ is_ratio none ≠ .ok () := by
  refine ⟨?_, by decide, by decide, by decide, by decide, by decide, by decide⟩
  intro v
  cases v with
  | none => simp [ is_ratio]
  | some fv =>
      cases fv with
      | num q =>
          unfold is_ratio
          dsimp only
          rw [show fle (.num 0) (.num q) = decide ((0 : ℚ) ≤ q) from rfl,
            show fle (.num q) (.num 1) = decide (q ≤ (1 : ℚ)) from rfl]
          by_cases h0 : (0 : ℚ) ≤ q
          · by_cases h1 : q ≤ (1 : ℚ)
            · simp [h0, h1]
            · simp [h0, h1]
          · simp [h0]
      | nan => simp [ is_ratio, fle]
      | inf => simp [ is_ratio, fle]
      | ninf => simp [ is_ratio, fle]

/-- C10: ExternalSolver.new opens the existing file at the path for reading
(File::open): on a path that names no existing file it returns an I/O solver
error and leaves the file system unchanged (no output file is created), and
every successful open yields a read-access handle without touching the file
system. -/
theorem c10_new_opens_readonly (fs : FS) (p : String) (hp : p ∉ fs.files) :
    (ExternalSolver.new fs p).1 = .error (.ioError 2) ∧
    (ExternalSolver.new fs p).2 = fs ∧
    (∀ (fs₁ : FS) (q : String) (h : FileHandle) (fs₂ : FS),
        fileOpen fs₁ q = (.ok h, fs₂) → h.mode = Mode.read ∧ fs₂ = fs₁) := by
  refine ⟨by rw [new_not_mem hp], by rw [new_not_mem hp], ?_⟩
  intro fs₁ q h fs₂ hop
  unfold fileOpen at hop
  by_cases hq : q ∈ fs₁.files
  · rw [if_pos hq] at hop
    injection hop with h1 h2
    injection h1 with h1
    subst h1
    exact ⟨rfl, h2.symm⟩
  · rw [if_neg hq] at hop
    injection hop with h1 _
    exact absurd h1 (by simp)

/-- C10 witness: opening a path over an empty file system fails with the I/O
error, creates nothing, and the read-access fact holds. -/
theorem c10_new_opens_readonly_witness :
    "trace.smt" ∉ (FS.mk []).files ∧
      ((ExternalSolver.new ⟨[]⟩ "trace.smt").1 = .error (.ioError 2) ∧
       (ExternalSolver.new ⟨[]⟩ "trace.smt").2 = ⟨[]⟩ ∧
       (∀ (fs₁ : FS) (q : String) (h : FileHandle) (fs₂ : FS),
          fileOpen fs₁ q = (.ok h, fs₂) → h.mode = Mode.read ∧ fs₂ = fs₁)) :=
  ⟨by simp, c10_new_opens_readonly ⟨[]⟩ "trace.smt" (by simp)⟩

/-- C3 witness: the amended forwarding law at a concrete input. -/
theorem c3_binary_error_forwarding_witness :
    SmtPrinter.binary okSink 2 .add (.error .satUnknown) (.error (.ioError 7))
      = (.error .satUnknown, okSink) :=
  c3_binary_error_forwarding.1 okSink 2 .add .satUnknown (.error (.ioError 7))

/-- C5 witness: the first mapped token. -/
theorem c5_operator_mapping_witness : to_smt .add = "bvadd" :=
  c5_operator_mapping.1

/-- C7 witness: the amended validator law applied at the accepted value 7. -/
theorem c7_depth_validator_witness : is "7" = .ok () :=
  (c7_depth_validator.1 "7").mpr ⟨7, by decide, by decide⟩

/-- C8 witness: the validator law applied at the accepted value 64. -/
theorem c8_memory_validator_witness : is_valid_memory_size "64" = .ok () :=
  (c8_memory_validator.1 "64").mpr ⟨64, by decide, by decide, by decide⟩

/-- C9 witness: the validator law applied at the in-range value one half. -/
theorem c9_ratio_validator_witness : is_ratio (some (.num (1 / 2))) = .ok () :=
  (c9_ratio_validator.1 (some (.num (1 / 2)))).mpr ⟨1 / 2, rfl, by norm_num, by norm_num⟩

end Monster
